import Mathlib

/-!
The time-series aggregation core of ss-monitor (`main.go`).

A shallow embedding of the aggregator (`insertResultIntoRows`, the consumer loop of
`startCheckers`), the retry loop of the prober, and the warm-start loader (`loadFiles`),
followed by theorems about them.

Conventions of the embedding

* A Go `string` / `[]byte` is a byte sequence; it is carried as a `List Char`, one element per
  byte (`Str`).  Only the separators `,`, `\n`, `\r`, the sign characters and the decimal digits
  are ever inspected.
* A `time.Time` is carried as its Unix second count (`Int`): `Unix()` is the only accessor the
  aggregator, the log and the loader use besides `Second()`, and `Second()` is the second count
  modulo 60 (zone offsets are whole minutes).
* `cfg.OldestHistory` is carried as a `Nat`: `readConfig` replaces every value `<= 0` by `60`.
* A `map[string]int32` is carried as the list of its assignments, newest first; `lookupCol` is the
  map read, `lenColumns` is `len`.
-/

namespace SsMonitor

/-- Go byte strings. -/
abbrev Str := List Char

/-! ## Data model -/

/-- The struct `benchmarkResult`; `startTime` is the Unix second count of the instant. -/
structure benchmarkResult where
  name : Str
  rt : Int
  startTime : Int
deriving DecidableEq

/-- The Go type `map[string]int32`, as its assignments, newest first. -/
abbrev Columns := List (Str × Int)

/-- The map read `columns[name]` with its presence flag. -/
def lookupCol (name : Str) : Columns → Option Int
  | [] => none
  | (k, v) :: m => if name = k then some v else lookupCol name m

/-- The map write `columns[name] = rt`. -/
def setCol (m : Columns) (name : Str) (rt : Int) : Columns := (name, rt) :: m

/-- The builtin `len(columns)`: the number of distinct keys. -/
def lenColumns (m : Columns) : Nat := (m.map Prod.fst).dedup.length

/-- The struct `dataRow`. -/
structure dataRow where
  timestamp : Int
  columns : Columns
deriving DecidableEq

/-- The normalisation of `cfg.OldestHistory` in `readConfig`. -/
def readConfigOldestHistory (configured : Int) : Nat :=
  if configured ≤ 0 then 60 else configured.toNat

/-! ## The merge step -/

/-- The function `dropTimeSecond`: `time.Unix(t.Unix()-int64(t.Second()), 0)`, as a Unix second count. -/
def dropTimeSecond (t : Int) : Int := t - t % 60

/-- The loop of `sort.Search`: `for i < j { h := (i+j)/2; if !f(h) { i = h+1 } else { j = h } }`. -/
def searchLoop (f : Nat → Bool) : Nat → Nat → Nat → Nat
  | 0, i, _ => i
  | fuel + 1, i, j =>
    if i < j then
      let h := (i + j) / 2
      if !f h then searchLoop f fuel (h + 1) j else searchLoop f fuel i h
    else i

/-- The library function `sort.Search(n, f)` (binary search); the interval halves at every turn,
so `n` turns are enough. -/
def sortSearch (n : Nat) (f : Nat → Bool) : Nat := searchLoop f n 0 n

/-- The function `insertSlices`: `append(rows[:i], append([]dataRow{row}, rows[i:]...)...)`. -/
def insertSlices (rows : List dataRow) (i : Nat) (row : dataRow) : List dataRow :=
  rows.take i ++ ([row] ++ rows.drop i)

/-- The closure passed to `sort.Search`: `rowTimestamp >= rows[i].timestamp`. -/
def searchPred (rows : List dataRow) (rowTimestamp : Int) (i : Nat) : Bool :=
  match rows[i]? with
  | some r => decide (rowTimestamp ≥ r.timestamp)
  | none => false

/-- The assignment `rows[i].columns[name] = rt`. -/
def assignCell : List dataRow → Nat → Str → Int → List dataRow
  | [], _, _, _ => []
  | r :: rs, 0, name, rt => { r with columns := setCol r.columns name rt } :: rs
  | r :: rs, i + 1, name, rt => r :: assignCell rs i name rt

/-- The function `insertResultIntoRows` over the global `rows` and `cfg.OldestHistory`: the new `rows` and
the returned index. -/
def insertResultIntoRows (oldestHistory : Nat) (rows : List dataRow) (result : benchmarkResult) :
    List dataRow × Nat :=
  let rowTimestamp := dropTimeSecond result.startTime
  let i := sortSearch rows.length (searchPred rows rowTimestamp)
  if 0 < rows.length ∧ i < rows.length ∧ rows[i]?.map dataRow.timestamp = some rowTimestamp then
    (assignCell rows i result.name result.rt, i)
  else
    let rows1 := insertSlices rows i ⟨rowTimestamp, setCol [] result.name result.rt⟩
    if rows1.length > oldestHistory then
      (rows1.take oldestHistory, if i ≥ oldestHistory then oldestHistory - 1 else i)
    else (rows1, i)

/-- The check `Series[i].key > Series[i+1].key` on every pair of neighbours. -/
def descendingB : List dataRow → Bool
  | a :: b :: rest => decide (a.timestamp > b.timestamp) && descendingB (b :: rest)
  | _ => true

/-- The Series invariant: keys strictly descending between neighbours. -/
def descending (rows : List dataRow) : Prop := descendingB rows = true

instance (rows : List dataRow) : Decidable (descending rows) := by
  unfold descending; infer_instance

/-! ## The consumer loop of `startCheckers` -/

/-- The digit byte of a value below ten. -/
def digitChar (d : Nat) : Char := Char.ofNat (48 + d)

/-- Decimal digits of `n`, most significant first, pushed in front of `acc`. -/
def fmtNatLoop : Nat → Nat → Str → Str
  | 0, _, acc => acc
  | fuel + 1, n, acc =>
    if n < 10 then digitChar n :: acc
    else fmtNatLoop fuel (n / 10) (digitChar (n % 10) :: acc)

/-- The verb `%d` of `fmt` on a non-negative integer. -/
def fmtNat (n : Nat) : Str := fmtNatLoop (n + 1) n []

/-- The verb `%d` of `fmt` on a signed integer. -/
def fmtInt (z : Int) : Str := if z < 0 then '-' :: fmtNat z.natAbs else fmtNat z.natAbs

/-- The log record: `fmt.Sprintf("%d,%s,%d\n", result.startTime.Unix(), result.name, result.rt)`. -/
def formatLine (result : benchmarkResult) : Str :=
  fmtInt result.startTime ++ (',' :: result.name ++ (',' :: fmtInt result.rt ++ ['\n']))

/-- What one turn of the consumer loop does: the line appended to the log segment, the new
`rows`, and whether the completion branch (`rotateDataFile` and `renderIndex`) ran. -/
structure stepOutcome where
  line : Str
  rows : List dataRow
  completed : Bool
deriving DecidableEq

/-- One turn of the consumer loop of `startCheckers` for a received result (the write to the
log succeeds); `none` is the index-out-of-range panic of `rows[i]`. -/
def aggregatorStep (oldestHistory : Nat) (namesList : List Str) (rows : List dataRow)
    (result : benchmarkResult) : Option stepOutcome :=
  let line := formatLine result
  let out := insertResultIntoRows oldestHistory rows result
  match out.1[out.2]? with
  | none => none
  | some row => some ⟨line, out.1, decide (lenColumns row.columns = namesList.length)⟩

/-- The consumer loop of `startCheckers` over the results received so far: the Series it
leaves and, result by result, whether the completion branch ran. -/
def consumerLoop (oldestHistory : Nat) (namesList : List Str) :
    List dataRow → List benchmarkResult → Option (List dataRow × List Bool)
  | rows, [] => some (rows, [])
  | rows, result :: rest =>
    match aggregatorStep oldestHistory namesList rows result with
    | none => none
    | some o =>
      match consumerLoop oldestHistory namesList o.rows rest with
      | none => none
      | some (rows2, flags) => some (rows2, o.completed :: flags)

/-- The bytes the consumer loop appends to the log segment for the results received, in
arrival order. -/
def writtenLog : List benchmarkResult → Str
  | [] => []
  | result :: rest => formatLine result ++ writtenLog rest

/-! ## The retry loop of the prober -/

/-- What the environment supplies to one pass of the retry loop: the clock reading
`time.Now().Unix()` at the start of the pass, the result of `testOne`, and the clock reading
taken when `remain` is computed. -/
structure attempt where
  startUnix : Int
  rt : Int
  failed : Bool
  endUnix : Int
deriving DecidableEq

/-- The observable actions of the prober goroutine. -/
inductive action where
  | probe : action
  | sleep : Int → action
  | emit : benchmarkResult → action
deriving DecidableEq

/-- The loop `for retry := 1; retry <= 3; retry++` of the prober: the last `rt` and the actions
performed, given the passes still allowed. -/
def retryLoop (env : Nat → attempt) : Nat → Nat → Int → List action → Int × List action
  | 0, _, rt, trace => (rt, trace)
  | fuel + 1, retry, rt, trace =>
    if retry ≤ 3 then
      let a := env retry
      let trace1 := trace ++ [action.probe]
      if a.failed then
        let remain := 15 - (a.endUnix - a.startUnix)
        let trace2 := if remain > 0 then trace1 ++ [action.sleep remain] else trace1
        retryLoop env fuel (retry + 1) a.rt trace2
      else (a.rt, trace1)
    else (rt, trace)

/-- The goroutine started for one site in one round: the retry loop, then
`resultChan <- benchmarkResult{site.Name, rt, startTime}` with the start time of the round. -/
def proberTask (env : Nat → attempt) (siteName : Str) (roundStart : Int) : List action :=
  let out := retryLoop env 4 1 0 []
  out.2 ++ [action.emit ⟨siteName, out.1, roundStart⟩]

/-- The pacing after a failed pass, as the claim words it: a sleep of `15 - elapsed` seconds
when that is positive, nothing otherwise. -/
def pacing (a : attempt) : List action :=
  if 15 - (a.endUnix - a.startUnix) > 0 then [action.sleep (15 - (a.endUnix - a.startUnix))]
  else []

/-! ## The warm-start loader -/

/-- The value of a decimal digit byte. -/
def digitVal (c : Char) : Option Nat :=
  if '0' ≤ c ∧ c ≤ '9' then some (c.toNat - 48) else none

/-- Accumulation of decimal digits; `none` on any other byte. -/
def parseDigits : Str → Nat → Option Nat
  | [], acc => some acc
  | c :: cs, acc =>
    match digitVal c with
    | some d => parseDigits cs (acc * 10 + d)
    | none => none

/-- The library function `strconv.ParseUint(s, 10, 0)` with a 64-bit `uint`. -/
def parseUint (s : Str) : Option Nat :=
  if s = [] then none
  else
    match parseDigits s 0 with
    | some n => if n < 2 ^ 64 then some n else none
    | none => none

/-- The library function `strconv.ParseInt(s, 10, 0)` with a 64-bit `int`. -/
def parseInt (s : Str) : Option Int :=
  match s with
  | [] => none
  | c :: cs =>
    let body := if c = '+' ∨ c = '-' then cs else s
    match parseUint body with
    | none => none
    | some un =>
      if c = '-' then (if un > 2 ^ 63 then none else some (-(un : Int)))
      else (if un ≥ 2 ^ 63 then none else some (un : Int))

/-- The bytes before and after the first comma. -/
def splitAtComma : Str → Option (Str × Str)
  | [] => none
  | c :: cs =>
    if c = ',' then some ([], cs)
    else
      match splitAtComma cs with
      | some (a, b) => some (c :: a, b)
      | none => none

/-- The library function `strings.SplitN(s, ",", 3)`. -/
def splitN3 (s : Str) : List Str :=
  match splitAtComma s with
  | none => [s]
  | some (a, rest) =>
    match splitAtComma rest with
    | none => [a, rest]
    | some (b, c) => [a, b, c]

/-- The conversion `int64(timestamp)` of a `uint64`. -/
def uint64ToInt64 (n : Nat) : Int := if n < 2 ^ 63 then (n : Int) else (n : Int) - 2 ^ 64

/-- The conversion `int32(rt)` of an `int64`. -/
def toInt32 (z : Int) : Int := (z + 2 ^ 31) % 2 ^ 32 - 2 ^ 31

/-- The body of the inner loop of `loadFiles` from `strings.SplitN` to the construction of the
`benchmarkResult`; `none` is every `continue`. -/
def parseLine (namesList : List Str) (line : Str) : Option benchmarkResult :=
  match splitN3 line with
  | [s0, s1, s2] =>
    match parseUint s0 with
    | none => none
    | some timestamp =>
      if s1 ∈ namesList then
        match parseInt s2 with
        | none => none
        | some rt => some ⟨s1, toInt32 rt, uint64ToInt64 timestamp⟩
      else none
  | _ => none

/-- How `bufio.Reader.ReadSlice` ends. -/
inductive sliceEnd where
  | delim : sliceEnd
  | bufferFull : sliceEnd
  | eof : sliceEnd
deriving DecidableEq

/-- The size of the buffer of `bufio.NewReader`. -/
def defaultBufSize : Nat := 4096

/-- The library function `bufio.Reader.ReadSlice` for the newline byte: the slice, the unread
input and how the slice ends, given the room left in the buffer. -/
def readSlice : Nat → Str → Str × Str × sliceEnd
  | 0, inp => ([], inp, sliceEnd.bufferFull)
  | _ + 1, [] => ([], [], sliceEnd.eof)
  | room + 1, c :: cs =>
    if c = '\n' then ([c], cs, sliceEnd.delim)
    else
      let out := readSlice room cs
      (c :: out.1, out.2.1, out.2.2)

/-- The library function `bufio.Reader.ReadLine`: the line and the unread input, `none` for
`io.EOF`.  A line longer than the buffer comes back in pieces. -/
def readLine (inp : Str) : Option (Str × Str) :=
  match readSlice defaultBufSize inp with
  | (line, rest, sliceEnd.bufferFull) =>
    if line.getLast? = some '\r' then some (line.dropLast, '\r' :: rest) else some (line, rest)
  | (line, rest, _) =>
    if line = [] then none
    else if line.getLast? = some '\n' then
      some (if line.dropLast.getLast? = some '\r' then line.dropLast.dropLast else line.dropLast,
        rest)
    else some (line, rest)

/-- The inner loop of `loadFiles` over one segment, `for len(rows) < cfg.OldestHistory`, given
the turns still allowed. -/
def loadLines (oldestHistory : Nat) (namesList : List Str) : Nat → Str → List dataRow → List dataRow
  | 0, _, rows => rows
  | fuel + 1, inp, rows =>
    if rows.length < oldestHistory then
      match readLine inp with
      | none => rows
      | some (line, rest) =>
        match parseLine namesList line with
        | none => loadLines oldestHistory namesList fuel rest rows
        | some result =>
          loadLines oldestHistory namesList fuel rest
            (insertResultIntoRows oldestHistory rows result).1
    else rows

/-- The function `loadFiles`: the outer loop over the day segments, today first; the list holds the segments
that exist on consecutive days, so its end is the first missing file.  Every turn of the inner
loop that reads a line consumes a byte, so one more turn than the segment has bytes is enough. -/
def loadFiles (oldestHistory : Nat) (namesList : List Str) : List Str → List dataRow → List dataRow
  | [], rows => rows
  | segment :: older, rows =>
    if rows.length < oldestHistory then
      loadFiles oldestHistory namesList older
        (loadLines oldestHistory namesList (segment.length + 1) segment rows)
    else rows

/-! ## Linear-scan description of the merge (used to reason about the binary search) -/

/-- The bucket a result creates when its minute is not in the Series. -/
def freshRow (key : Int) (name : Str) (rt : Int) : dataRow := ⟨key, setCol [] name rt⟩

/-- Placement of a cell by a scan from the head: in front of the first older bucket, into the
bucket of the same minute, or at the tail. -/
def placeByScan (key : Int) (name : Str) (rt : Int) : List dataRow → List dataRow
  | [] => [freshRow key name rt]
  | r :: rs =>
    if r.timestamp < key then freshRow key name rt :: r :: rs
    else if r.timestamp = key then { r with columns := setCol r.columns name rt } :: rs
    else r :: placeByScan key name rt rs

/-- The number of buckets strictly newer than `key`, counted from the head. -/
def newerCount (key : Int) : List dataRow → Nat
  | [] => 0
  | r :: rs => if key < r.timestamp then newerCount key rs + 1 else 0

/-- The minute of the result is a bucket key of the Series (read at the search position). -/
def bucketAtSearch (key : Int) (rows : List dataRow) : Prop :=
  rows[newerCount key rows]?.map dataRow.timestamp = some key

instance (key : Int) (rows : List dataRow) : Decidable (bucketAtSearch key rows) := by
  unfold bucketAtSearch; infer_instance

/-- Two buckets agree: same key, and every map read gives the same answer (a Go map has no
order, so this is equality of the maps). -/
def sameRow (x y : dataRow) : Prop :=
  x.timestamp = y.timestamp ∧ ∀ name, lookupCol name x.columns = lookupCol name y.columns

/-- Two Series agree: same length and the buckets agree position by position. -/
def sameSeries (a b : List dataRow) : Prop := List.Forall₂ sameRow a b

end SsMonitor

namespace SsMonitor

/-! ## Configuration -/

theorem readConfigOldestHistory_pos (configured : Int) :
    1 ≤ readConfigOldestHistory configured := by
  unfold readConfigOldestHistory
  split <;> omega

/-! ## Binary search -/

theorem searchLoop_spec (f : Nat → Bool) (n : Nat)
    (hmono : ∀ a b, a ≤ b → b < n → f a = true → f b = true) :
    ∀ fuel i j, i ≤ j → j ≤ n → j - i ≤ fuel →
      (∀ k, k < i → f k = false) → (∀ k, j ≤ k → k < n → f k = true) →
      (∀ k, k < searchLoop f fuel i j → f k = false) ∧
      (∀ k, searchLoop f fuel i j ≤ k → k < n → f k = true) ∧
      searchLoop f fuel i j ≤ n := by
  intro fuel
  induction fuel with
  | zero =>
    intro i j hij hjn hf hlo hhi
    have : i = j := by omega
    subst this
    exact ⟨hlo, hhi, hjn⟩
  | succ fuel ih =>
    intro i j hij hjn hf hlo hhi
    unfold searchLoop
    by_cases hlt : i < j
    · simp only [hlt, if_true]
      by_cases hfh : f ((i + j) / 2) = true
      · simp only [hfh, Bool.not_true, Bool.false_eq_true, if_false]
        apply ih i ((i + j) / 2) (by omega) (by omega) (by omega) hlo
        intro k hk hkn
        exact hmono _ _ hk hkn hfh
      · have hfh2 : f ((i + j) / 2) = false := by simpa using hfh
        simp only [hfh2, Bool.not_false, if_true]
        apply ih ((i + j) / 2 + 1) j (by omega) hjn (by omega) _ hhi
        intro k hk
        by_contra hc
        have hc2 : f k = true := by simpa using hc
        have := hmono k ((i + j) / 2) (by omega) (by omega) hc2
        rw [hfh2] at this
        exact Bool.false_ne_true this
    · simp only [hlt, if_false]
      have : i = j := by omega
      subst this
      exact ⟨hlo, hhi, hjn⟩

theorem descending_iff_pairwise (rows : List dataRow) :
    descending rows ↔ rows.Pairwise (fun a b => a.timestamp > b.timestamp) := by
  haveI : IsTrans dataRow (fun a b => a.timestamp > b.timestamp) :=
    ⟨fun a b c h1 h2 => lt_trans h2 h1⟩
  rw [← List.chain'_iff_pairwise]
  unfold descending
  induction rows with
  | nil => simp [descendingB]
  | cons a t ih =>
    cases t with
    | nil => simp [descendingB]
    | cons b rest =>
      rw [List.chain'_cons, ih.symm]
      simp [descendingB]

theorem newerCount_le (key : Int) (rows : List dataRow) : newerCount key rows ≤ rows.length := by
  induction rows with
  | nil => simp [newerCount]
  | cons r rs ih =>
    unfold newerCount
    split
    · simp; exact ih
    · simp

theorem newerCount_unique (key : Int) :
    ∀ (rows : List dataRow) (idx : Nat), idx ≤ rows.length →
      (∀ k, k < idx → searchPred rows key k = false) →
      (∀ k, idx ≤ k → k < rows.length → searchPred rows key k = true) →
      idx = newerCount key rows := by
  intro rows
  induction rows with
  | nil => intro idx h _ _; simpa [newerCount] using h
  | cons r rs ih =>
    intro idx hle hlo hhi
    unfold newerCount
    by_cases hk : key < r.timestamp
    · simp only [hk, if_true]
      cases idx with
      | zero =>
        have := hhi 0 (le_refl _) (by simp)
        simp [searchPred] at this
        omega
      | succ idx =>
        congr 1
        apply ih idx (by simpa using hle)
        · intro k hk2
          have := hlo (k + 1) (by omega)
          simpa [searchPred] using this
        · intro k hk2 hk3
          have := hhi (k + 1) (by omega) (by simp; omega)
          simpa [searchPred] using this
    · simp only [hk, if_false]
      cases idx with
      | zero => rfl
      | succ idx =>
        have := hlo 0 (by omega)
        simp [searchPred] at this
        omega

theorem searchPred_mono (key : Int) (rows : List dataRow)
    (hd : rows.Pairwise (fun a b => a.timestamp > b.timestamp)) :
    ∀ a b, a ≤ b → b < rows.length → searchPred rows key a = true →
      searchPred rows key b = true := by
  intro a b hab hb ha
  have ha2 : a < rows.length := by omega
  rcases Nat.eq_or_lt_of_le hab with h | h
  · subst h; exact ha
  · have := List.pairwise_iff_getElem.mp hd a b ha2 hb h
    simp only [searchPred, List.getElem?_eq_getElem ha2, List.getElem?_eq_getElem hb,
      decide_eq_true_eq] at ha ⊢
    omega

theorem sortSearch_eq_newerCount (key : Int) (rows : List dataRow)
    (hd : rows.Pairwise (fun a b => a.timestamp > b.timestamp)) :
    sortSearch rows.length (searchPred rows key) = newerCount key rows := by
  have h := searchLoop_spec (searchPred rows key) rows.length (searchPred_mono key rows hd)
    rows.length 0 rows.length (Nat.zero_le _) (le_refl _) (by omega)
    (by intro k hk; omega) (by intro k hk hk2; omega)
  exact newerCount_unique key rows _ h.2.2 h.1 h.2.1

theorem placeByScan_eq (key : Int) (name : Str) (rt : Int) (rows : List dataRow) :
    placeByScan key name rt rows =
      if rows[newerCount key rows]?.map dataRow.timestamp = some key then
        assignCell rows (newerCount key rows) name rt
      else insertSlices rows (newerCount key rows) (freshRow key name rt) := by
  induction rows with
  | nil => simp [placeByScan, newerCount, insertSlices]
  | cons r rs ih =>
    unfold placeByScan newerCount
    by_cases h1 : key < r.timestamp
    · have h2 : ¬ r.timestamp < key := by omega
      have h3 : ¬ r.timestamp = key := by omega
      simp only [h1, h2, h3, if_true, if_false, List.getElem?_cons_succ, ih]
      split
      · simp [assignCell]
      · simp [insertSlices]
    · simp only [h1, if_false]
      by_cases h2 : r.timestamp < key
      · have h3 : ¬ r.timestamp = key := by omega
        simp [h2, h3, insertSlices]
      · have h3 : r.timestamp = key := by omega
        simp [h2, h3, assignCell]

theorem bucketAtSearch_iff_mem (key : Int) (rows : List dataRow)
    (hd : rows.Pairwise (fun a b => a.timestamp > b.timestamp)) :
    bucketAtSearch key rows ↔ key ∈ rows.map dataRow.timestamp := by
  unfold bucketAtSearch
  induction rows with
  | nil => simp [newerCount]
  | cons r rs ih =>
    have hd2 := List.pairwise_cons.mp hd
    unfold newerCount
    by_cases h1 : key < r.timestamp
    · simp only [h1, if_true, List.getElem?_cons_succ, ih hd2.2, List.map_cons, List.mem_cons]
      constructor
      · intro h; exact Or.inr h
      · intro h
        rcases h with h | h
        · omega
        · exact h
    · simp only [h1, if_false, List.getElem?_cons_zero, Option.map_some', Option.some.injEq,
        List.map_cons, List.mem_cons]
      constructor
      · intro h; exact Or.inl h.symm
      · intro h
        rcases h with h | h
        · exact h.symm
        · rcases List.mem_map.mp h with ⟨y, hy, hyk⟩
          have := hd2.1 y hy
          omega

theorem insert_rows_eq (cap : Nat) (rows : List dataRow) (r : benchmarkResult)
    (hd : rows.Pairwise (fun a b => a.timestamp > b.timestamp)) :
    (insertResultIntoRows cap rows r).1 =
      if bucketAtSearch (dropTimeSecond r.startTime) rows then
        placeByScan (dropTimeSecond r.startTime) r.name r.rt rows
      else (placeByScan (dropTimeSecond r.startTime) r.name r.rt rows).take cap := by
  unfold insertResultIntoRows
  simp only [sortSearch_eq_newerCount _ rows hd]
  rw [placeByScan_eq]
  unfold bucketAtSearch
  by_cases h : rows[newerCount (dropTimeSecond r.startTime) rows]?.map dataRow.timestamp
      = some (dropTimeSecond r.startTime)
  · have hlt : newerCount (dropTimeSecond r.startTime) rows < rows.length := by
      by_contra hc
      rw [List.getElem?_eq_none (by omega)] at h
      simp at h
    have hpos : 0 < rows.length := by omega
    simp only [h, hlt, hpos, and_self, if_true]
  · simp only [h, and_false, if_false, freshRow]
    split
    · rfl
    · rw [List.take_of_length_le (by omega)]

theorem insert_idx_eq (cap : Nat) (rows : List dataRow) (r : benchmarkResult)
    (hd : rows.Pairwise (fun a b => a.timestamp > b.timestamp)) :
    (insertResultIntoRows cap rows r).2 =
      if bucketAtSearch (dropTimeSecond r.startTime) rows then
        newerCount (dropTimeSecond r.startTime) rows
      else if rows.length + 1 > cap ∧ newerCount (dropTimeSecond r.startTime) rows ≥ cap then
        cap - 1
      else newerCount (dropTimeSecond r.startTime) rows := by
  unfold insertResultIntoRows
  simp only [sortSearch_eq_newerCount _ rows hd]
  unfold bucketAtSearch
  have hnc := newerCount_le (dropTimeSecond r.startTime) rows
  by_cases h : rows[newerCount (dropTimeSecond r.startTime) rows]?.map dataRow.timestamp
      = some (dropTimeSecond r.startTime)
  · have hlt : newerCount (dropTimeSecond r.startTime) rows < rows.length := by
      by_contra hc
      rw [List.getElem?_eq_none (by omega)] at h
      simp at h
    have hpos : 0 < rows.length := by omega
    simp only [h, hlt, hpos, and_self, if_true]
  · simp only [h, and_false, if_false]
    have hlen : (insertSlices rows (newerCount (dropTimeSecond r.startTime) rows)
        ⟨dropTimeSecond r.startTime, setCol [] r.name r.rt⟩).length = rows.length + 1 := by
      simp [insertSlices]; omega
    rw [hlen]
    by_cases h2 : rows.length + 1 > cap
    · simp only [h2, if_true, true_and]
    · simp only [h2, if_false, false_and]

theorem assignCell_length (rows : List dataRow) (i : Nat) (name : Str) (rt : Int) :
    (assignCell rows i name rt).length = rows.length := by
  induction rows generalizing i with
  | nil => simp [assignCell]
  | cons r rs ih => cases i <;> simp [assignCell, ih]

theorem placeByScan_length (key : Int) (name : Str) (rt : Int) (rows : List dataRow) :
    (placeByScan key name rt rows).length =
      if bucketAtSearch key rows then rows.length else rows.length + 1 := by
  rw [placeByScan_eq]
  unfold bucketAtSearch
  have hnc := newerCount_le key rows
  split
  · exact assignCell_length rows _ name rt
  · simp [insertSlices]; omega

theorem placeByScan_keys (key : Int) (name : Str) (rt : Int) (rows : List dataRow) :
    ∀ x ∈ placeByScan key name rt rows, x.timestamp = key ∨ ∃ y ∈ rows, y.timestamp = x.timestamp := by
  induction rows with
  | nil => intro x hx; simp [placeByScan, freshRow] at hx; left; rw [hx]
  | cons r rs ih =>
    intro x hx
    unfold placeByScan at hx
    split at hx
    · rcases List.mem_cons.mp hx with h | h
      · left; rw [h]; rfl
      · right; exact ⟨x, h, rfl⟩
    · split at hx
      · rcases List.mem_cons.mp hx with h | h
        · right; exact ⟨r, List.mem_cons_self _ _, by rw [h]⟩
        · right; exact ⟨x, List.mem_cons_of_mem _ h, rfl⟩
      · rcases List.mem_cons.mp hx with h | h
        · right; exact ⟨r, List.mem_cons_self _ _, by rw [h]⟩
        · rcases ih x h with h2 | ⟨y, hy, hyx⟩
          · left; exact h2
          · right; exact ⟨y, List.mem_cons_of_mem _ hy, hyx⟩

theorem placeByScan_pairwise (key : Int) (name : Str) (rt : Int) (rows : List dataRow)
    (hd : rows.Pairwise (fun a b => a.timestamp > b.timestamp)) :
    (placeByScan key name rt rows).Pairwise (fun a b => a.timestamp > b.timestamp) := by
  induction rows with
  | nil => simp [placeByScan]
  | cons r rs ih =>
    have hd2 := List.pairwise_cons.mp hd
    unfold placeByScan
    split
    · rename_i h1
      refine List.pairwise_cons.mpr ⟨?_, hd⟩
      intro y hy
      rcases List.mem_cons.mp hy with h | h
      · rw [h]; simpa [freshRow] using h1
      · have := hd2.1 y h
        simp only [freshRow]; omega
    · split
      · exact List.pairwise_cons.mpr ⟨fun y hy => hd2.1 y hy, hd2.2⟩
      · rename_i h1 h2
        refine List.pairwise_cons.mpr ⟨?_, ih hd2.2⟩
        intro y hy
        rcases placeByScan_keys key name rt rs y hy with h | ⟨z, hz, hzy⟩
        · omega
        · have := hd2.1 z hz
          omega

theorem insert_pairwise (cap : Nat) (rows : List dataRow) (r : benchmarkResult)
    (hd : rows.Pairwise (fun a b => a.timestamp > b.timestamp)) :
    (insertResultIntoRows cap rows r).1.Pairwise (fun a b => a.timestamp > b.timestamp) := by
  rw [insert_rows_eq cap rows r hd]
  have h := placeByScan_pairwise (dropTimeSecond r.startTime) r.name r.rt rows hd
  split
  · exact h
  · exact h.sublist (List.take_sublist _ _)

theorem insert_length_le (cap : Nat) (rows : List dataRow) (r : benchmarkResult)
    (hd : rows.Pairwise (fun a b => a.timestamp > b.timestamp)) (hlen : rows.length ≤ cap) :
    (insertResultIntoRows cap rows r).1.length ≤ cap := by
  rw [insert_rows_eq cap rows r hd]
  split
  · rename_i h
    rw [placeByScan_length, if_pos h]; exact hlen
  · simp

/-! ## Invariants of `insertResultIntoRows` -/

/-- C1: for every Series with strictly descending keys, every capacity of at least one and every
result, the Series left by `insertResultIntoRows` has strictly descending keys again, hence no
key twice; this covers the overwrite, the insertion and the truncation alike. -/
theorem insertResultIntoRows_descending (cap : Nat) (rows : List dataRow) (r : benchmarkResult)
    (hcap : 1 ≤ cap) (hd : descending rows) :
    descending (insertResultIntoRows cap rows r).1 ∧
      ((insertResultIntoRows cap rows r).1.map dataRow.timestamp).Nodup := by
  have _ := hcap
  have hp := insert_pairwise cap rows r ((descending_iff_pairwise rows).mp hd)
  refine ⟨(descending_iff_pairwise _).mpr hp, ?_⟩
  rw [List.Nodup, List.pairwise_map]
  exact hp.imp (fun h => by omega)

theorem insertResultIntoRows_descending_witness :
    descending (insertResultIntoRows 2 [⟨120, [(['A'], 5)]⟩, ⟨60, [(['A'], 6)]⟩]
        ⟨['B'], 7, 185⟩).1 ∧
      ((insertResultIntoRows 2 [⟨120, [(['A'], 5)]⟩, ⟨60, [(['A'], 6)]⟩]
        ⟨['B'], 7, 185⟩).1.map dataRow.timestamp).Nodup :=
  insertResultIntoRows_descending 2 [⟨120, [(['A'], 5)]⟩, ⟨60, [(['A'], 6)]⟩] ⟨['B'], 7, 185⟩
    (by decide) (by decide)

/-- C2: for every capacity of at least one, every strictly descending Series no longer than the
capacity and every result, the Series left by `insertResultIntoRows` is no longer than the
capacity; and when the Series is full and the minute of the result is not one of its keys, the
result is the first `cap` buckets of the Series with the new bucket spliced in at the position
that keeps the keys descending: exactly one bucket is dropped, it is the one with the smallest
key, and the head is kept. -/
theorem insertResultIntoRows_capacity (cap : Nat) (rows : List dataRow) (r : benchmarkResult)
    (hcap : 1 ≤ cap) (hd : descending rows) (hlen : rows.length ≤ cap) :
    (insertResultIntoRows cap rows r).1.length ≤ cap ∧
      (rows.length = cap → dropTimeSecond r.startTime ∉ rows.map dataRow.timestamp →
        ∃ i, i ≤ rows.length ∧
          descending (rows.take i ++ ⟨dropTimeSecond r.startTime, [(r.name, r.rt)]⟩ :: rows.drop i) ∧
          (insertResultIntoRows cap rows r).1 =
            (rows.take i ++ ⟨dropTimeSecond r.startTime, [(r.name, r.rt)]⟩ :: rows.drop i).take cap ∧
          (insertResultIntoRows cap rows r).1.head? =
            (rows.take i ++ ⟨dropTimeSecond r.startTime, [(r.name, r.rt)]⟩ :: rows.drop i).head? ∧
          ∃ d, rows.take i ++ ⟨dropTimeSecond r.startTime, [(r.name, r.rt)]⟩ :: rows.drop i =
              (insertResultIntoRows cap rows r).1 ++ [d] ∧
            ∀ x ∈ (insertResultIntoRows cap rows r).1, d.timestamp < x.timestamp) := by
  have hp := (descending_iff_pairwise rows).mp hd
  refine ⟨insert_length_le cap rows r hp hlen, ?_⟩
  intro hfull hnew
  have hnot : ¬ bucketAtSearch (dropTimeSecond r.startTime) rows := by
    rw [bucketAtSearch_iff_mem _ _ hp]; exact hnew
  have hplace := placeByScan_eq (dropTimeSecond r.startTime) r.name r.rt rows
  have hnot2 := hnot
  unfold bucketAtSearch at hnot2
  rw [if_neg hnot2] at hplace
  have hsp : insertSlices rows (newerCount (dropTimeSecond r.startTime) rows)
      (freshRow (dropTimeSecond r.startTime) r.name r.rt) =
      rows.take (newerCount (dropTimeSecond r.startTime) rows) ++
        ⟨dropTimeSecond r.startTime, [(r.name, r.rt)]⟩ ::
          rows.drop (newerCount (dropTimeSecond r.startTime) rows) := by
    simp [insertSlices, freshRow, setCol]
  rw [hsp] at hplace
  have hpw := placeByScan_pairwise (dropTimeSecond r.startTime) r.name r.rt rows hp
  have hlen2 := placeByScan_length (dropTimeSecond r.startTime) r.name r.rt rows
  rw [if_neg hnot] at hlen2
  have hres := insert_rows_eq cap rows r hp
  rw [if_neg hnot] at hres
  rw [hplace] at hpw hlen2 hres
  refine ⟨newerCount (dropTimeSecond r.startTime) rows, newerCount_le _ _,
    (descending_iff_pairwise _).mpr hpw, hres, ?_, ?_⟩
  · rw [hres]
    generalize rows.take (newerCount (dropTimeSecond r.startTime) rows) ++
        ⟨dropTimeSecond r.startTime, [(r.name, r.rt)]⟩ ::
          rows.drop (newerCount (dropTimeSecond r.startTime) rows) = l
    cases l with
    | nil => simp
    | cons a t =>
      obtain ⟨c, rfl⟩ : ∃ c, cap = c + 1 := ⟨cap - 1, by omega⟩
      simp
  · rw [hres]
    generalize rows.take (newerCount (dropTimeSecond r.startTime) rows) ++
        ⟨dropTimeSecond r.startTime, [(r.name, r.rt)]⟩ ::
          rows.drop (newerCount (dropTimeSecond r.startTime) rows) = l at hpw hlen2
    have hsplit := (List.take_append_drop cap l).symm
    have hdl : (l.drop cap).length = 1 := by simp; omega
    obtain ⟨d, hd1⟩ := List.length_eq_one.mp hdl
    rw [hd1] at hsplit
    refine ⟨d, hsplit, ?_⟩
    intro x hx
    rw [hsplit] at hpw
    have := (List.pairwise_append.mp hpw).2.2 x hx d (by simp)
    exact this

theorem insertResultIntoRows_capacity_witness :
    (insertResultIntoRows 2 [⟨180, [(['A'], 5)]⟩, ⟨60, [(['A'], 6)]⟩]
        ⟨['B'], 7, 125⟩).1.length ≤ 2 ∧
      (([⟨180, [(['A'], 5)]⟩, ⟨60, [(['A'], 6)]⟩] : List dataRow).length = 2 →
        dropTimeSecond (125 : Int) ∉
          ([⟨180, [(['A'], 5)]⟩, ⟨60, [(['A'], 6)]⟩] : List dataRow).map dataRow.timestamp →
        ∃ i, i ≤ ([⟨180, [(['A'], 5)]⟩, ⟨60, [(['A'], 6)]⟩] : List dataRow).length ∧
          descending (([⟨180, [(['A'], 5)]⟩, ⟨60, [(['A'], 6)]⟩] : List dataRow).take i ++
            ⟨dropTimeSecond 125, [(['B'], 7)]⟩ ::
              ([⟨180, [(['A'], 5)]⟩, ⟨60, [(['A'], 6)]⟩] : List dataRow).drop i) ∧
          (insertResultIntoRows 2 [⟨180, [(['A'], 5)]⟩, ⟨60, [(['A'], 6)]⟩] ⟨['B'], 7, 125⟩).1 =
            (([⟨180, [(['A'], 5)]⟩, ⟨60, [(['A'], 6)]⟩] : List dataRow).take i ++
              ⟨dropTimeSecond 125, [(['B'], 7)]⟩ ::
                ([⟨180, [(['A'], 5)]⟩, ⟨60, [(['A'], 6)]⟩] : List dataRow).drop i).take 2 ∧
          (insertResultIntoRows 2 [⟨180, [(['A'], 5)]⟩, ⟨60, [(['A'], 6)]⟩]
              ⟨['B'], 7, 125⟩).1.head? =
            (([⟨180, [(['A'], 5)]⟩, ⟨60, [(['A'], 6)]⟩] : List dataRow).take i ++
              ⟨dropTimeSecond 125, [(['B'], 7)]⟩ ::
                ([⟨180, [(['A'], 5)]⟩, ⟨60, [(['A'], 6)]⟩] : List dataRow).drop i).head? ∧
          ∃ d, ([⟨180, [(['A'], 5)]⟩, ⟨60, [(['A'], 6)]⟩] : List dataRow).take i ++
                ⟨dropTimeSecond 125, [(['B'], 7)]⟩ ::
                  ([⟨180, [(['A'], 5)]⟩, ⟨60, [(['A'], 6)]⟩] : List dataRow).drop i =
              (insertResultIntoRows 2 [⟨180, [(['A'], 5)]⟩, ⟨60, [(['A'], 6)]⟩]
                ⟨['B'], 7, 125⟩).1 ++ [d] ∧
            ∀ x ∈ (insertResultIntoRows 2 [⟨180, [(['A'], 5)]⟩, ⟨60, [(['A'], 6)]⟩]
                ⟨['B'], 7, 125⟩).1, d.timestamp < x.timestamp) :=
  insertResultIntoRows_capacity 2 [⟨180, [(['A'], 5)]⟩, ⟨60, [(['A'], 6)]⟩] ⟨['B'], 7, 125⟩
    (by decide) (by decide) (by decide)

/-! ## Independence of the arrival order -/

theorem sameRow_refl (x : dataRow) : sameRow x x := ⟨rfl, fun _ => rfl⟩

theorem sameSeries_refl (a : List dataRow) : sameSeries a a := by
  unfold sameSeries
  induction a with
  | nil => exact List.Forall₂.nil
  | cons x t ih => exact List.Forall₂.cons (sameRow_refl x) ih

theorem sameRow_swap (ts1 ts2 : Int) (c1 : Columns) (n1 n2 : Str) (v1 v2 : Int)
    (hn : n1 ≠ n2) (hts : ts1 = ts2) :
    sameRow ⟨ts1, setCol (setCol c1 n1 v1) n2 v2⟩ ⟨ts2, setCol (setCol c1 n2 v2) n1 v1⟩ := by
  refine ⟨hts, ?_⟩
  intro name
  simp only [setCol, lookupCol]
  by_cases e1 : name = n1
  · by_cases e2 : name = n2
    · exact absurd (e1.symm.trans e2) hn
    · simp [e1, hn]
  · simp [e1]

theorem take_cons_take (cap : Nat) (x : dataRow) (l : List dataRow) :
    (x :: l.take cap).take cap = (x :: l).take cap := by
  cases cap with
  | zero => simp
  | succ c => simp [List.take_take]

theorem placeByScan_take (key : Int) (name : Str) (rt : Int) :
    ∀ (cap : Nat) (l : List dataRow),
      (placeByScan key name rt (l.take cap)).take cap = (placeByScan key name rt l).take cap := by
  intro cap
  induction cap with
  | zero => intro l; simp
  | succ c ih =>
    intro l
    cases l with
    | nil => simp
    | cons x t =>
      simp only [List.take_succ_cons, placeByScan]
      split
      · simp only [List.take_succ_cons, take_cons_take]
      · split
        · simp [List.take_take]
        · simp only [List.take_succ_cons, ih]

theorem placeByScan_comm (k1 k2 : Int) (n1 n2 : Str) (v1 v2 : Int)
    (hcell : ¬ (k1 = k2 ∧ n1 = n2)) :
    ∀ l : List dataRow,
      sameSeries (placeByScan k2 n2 v2 (placeByScan k1 n1 v1 l))
        (placeByScan k1 n1 v1 (placeByScan k2 n2 v2 l)) := by
  intro l
  induction l with
  | nil =>
    rcases lt_trichotomy k1 k2 with h | h | h
    · have h1 : ¬ k2 < k1 := by omega
      have h2 : ¬ k2 = k1 := by omega
      simp only [placeByScan, freshRow, h, h1, h2, if_true, if_false]
      exact sameSeries_refl _
    · subst h
      have hn : n1 ≠ n2 := fun e => hcell ⟨rfl, e⟩
      simp only [placeByScan, freshRow, lt_irrefl, if_true, if_false]
      refine List.Forall₂.cons ⟨rfl, ?_⟩ List.Forall₂.nil
      intro name
      simp only [setCol, lookupCol]
      by_cases e1 : name = n1
      · by_cases e2 : name = n2
        · exact absurd (e1.symm.trans e2) hn
        · simp [e1, hn]
      · simp [e1]
    · have h1 : ¬ k1 < k2 := by omega
      have h2 : ¬ k1 = k2 := by omega
      simp only [placeByScan, freshRow, h, h1, h2, if_true, if_false]
      exact sameSeries_refl _
  | cons x t ih =>
    simp only [placeByScan, freshRow]
    split_ifs <;> simp only [placeByScan, freshRow] <;> split_ifs <;>
      first
      | (exfalso; omega)
      | exact sameSeries_refl _
      | exact List.Forall₂.cons (sameRow_refl _) ih
      | exact List.Forall₂.cons
          (sameRow_swap _ _ _ n1 n2 v1 v2 (fun e => hcell ⟨by omega, e⟩) (by omega))
          (sameSeries_refl _)

theorem insert_rows_eq_take (cap : Nat) (rows : List dataRow) (r : benchmarkResult)
    (hp : rows.Pairwise (fun a b => a.timestamp > b.timestamp)) (hlen : rows.length ≤ cap) :
    (insertResultIntoRows cap rows r).1 =
      (placeByScan (dropTimeSecond r.startTime) r.name r.rt rows).take cap := by
  rw [insert_rows_eq cap rows r hp]
  split
  · rename_i h
    rw [List.take_of_length_le]
    rw [placeByScan_length, if_pos h]; exact hlen
  · rfl

theorem pairwise_index_lt (l : List dataRow)
    (hp : l.Pairwise (fun a b => a.timestamp > b.timestamp)) (i j : Nat) (x y : dataRow)
    (hx : l[i]? = some x) (hy : l[j]? = some y) (hgt : x.timestamp > y.timestamp) : i < j := by
  obtain ⟨hi, hxi⟩ := List.getElem?_eq_some.mp hx
  obtain ⟨hj, hyj⟩ := List.getElem?_eq_some.mp hy
  by_contra hc
  rcases Nat.eq_or_lt_of_le (Nat.le_of_not_lt hc) with h | h
  · subst h
    rw [hxi] at hyj; subst hyj; omega
  · have := List.pairwise_iff_getElem.mp hp j i hj hi h
    rw [hxi, hyj] at this; omega

/-- C6: for every capacity of at least one, every strictly descending Series no longer than the
capacity and every two results that do not address the same (minute, target) cell, inserting
them in one order leaves the same Series as inserting them in the other order (same keys in the
same order, same maps); and in the outcome a bucket with a later minute always stands ahead of
a bucket with an earlier minute, whatever the arrival order was. -/
theorem insertResultIntoRows_order_independent (cap : Nat) (rows : List dataRow)
    (r1 r2 : benchmarkResult) (hcap : 1 ≤ cap) (hd : descending rows) (hlen : rows.length ≤ cap)
    (hcell : ¬ (dropTimeSecond r1.startTime = dropTimeSecond r2.startTime ∧ r1.name = r2.name)) :
    sameSeries (insertResultIntoRows cap (insertResultIntoRows cap rows r1).1 r2).1
        (insertResultIntoRows cap (insertResultIntoRows cap rows r2).1 r1).1 ∧
      ∀ (i j : Nat) (x y : dataRow), (insertResultIntoRows cap (insertResultIntoRows cap rows r1).1 r2).1[i]? = some x →
        (insertResultIntoRows cap (insertResultIntoRows cap rows r1).1 r2).1[j]? = some y →
        x.timestamp > y.timestamp → i < j := by
  have _ := hcap
  have hp := (descending_iff_pairwise rows).mp hd
  have hp1 := insert_pairwise cap rows r1 hp
  have hp2 := insert_pairwise cap rows r2 hp
  have hl1 := insert_length_le cap rows r1 hp hlen
  have hl2 := insert_length_le cap rows r2 hp hlen
  constructor
  · rw [insert_rows_eq_take cap _ r2 hp1 hl1, insert_rows_eq_take cap _ r1 hp2 hl2,
      insert_rows_eq_take cap rows r1 hp hlen, insert_rows_eq_take cap rows r2 hp hlen,
      placeByScan_take, placeByScan_take]
    exact List.forall₂_take cap
      (placeByScan_comm _ _ r1.name r2.name r1.rt r2.rt hcell rows)
  · intro i j x y hx hy hgt
    exact pairwise_index_lt _ (insert_pairwise cap _ r2 hp1) i j x y hx hy hgt

theorem insertResultIntoRows_order_independent_witness :
    sameSeries
        (insertResultIntoRows 2 (insertResultIntoRows 2
          [⟨180, [(['A'], 5)]⟩, ⟨60, [(['A'], 6)]⟩] ⟨['B'], 7, 245⟩).1 ⟨['A'], 8, 125⟩).1
        (insertResultIntoRows 2 (insertResultIntoRows 2
          [⟨180, [(['A'], 5)]⟩, ⟨60, [(['A'], 6)]⟩] ⟨['A'], 8, 125⟩).1 ⟨['B'], 7, 245⟩).1 ∧
      ∀ (i j : Nat) (x y : dataRow),
        (insertResultIntoRows 2 (insertResultIntoRows 2
          [⟨180, [(['A'], 5)]⟩, ⟨60, [(['A'], 6)]⟩] ⟨['B'], 7, 245⟩).1 ⟨['A'], 8, 125⟩).1[i]?
            = some x →
        (insertResultIntoRows 2 (insertResultIntoRows 2
          [⟨180, [(['A'], 5)]⟩, ⟨60, [(['A'], 6)]⟩] ⟨['B'], 7, 245⟩).1 ⟨['A'], 8, 125⟩).1[j]?
            = some y →
        x.timestamp > y.timestamp → i < j :=
  insertResultIntoRows_order_independent 2 [⟨180, [(['A'], 5)]⟩, ⟨60, [(['A'], 6)]⟩]
    ⟨['B'], 7, 245⟩ ⟨['A'], 8, 125⟩ (by decide) (by decide) (by decide) (by decide)

/-! ## Overwriting a cell -/

theorem assignCell_getElem? (l : List dataRow) (i : Nat) (name : Str) (rt : Int) (j : Nat) :
    (assignCell l i name rt)[j]? =
      if j = i then l[j]?.map (fun r => { r with columns := setCol r.columns name rt })
      else l[j]? := by
  induction l generalizing i j with
  | nil => simp [assignCell]
  | cons r rs ih =>
    cases i with
    | zero =>
      cases j with
      | zero => simp [assignCell]
      | succ j => simp [assignCell]
    | succ i =>
      cases j with
      | zero => simp [assignCell]
      | succ j => simp [assignCell, ih]

theorem newerCount_lt_of_getLast (key : Int) (rows : List dataRow) (last : dataRow)
    (hlast : rows.getLast? = some last) (hle : last.timestamp ≤ key) :
    newerCount key rows < rows.length := by
  induction rows with
  | nil => simp at hlast
  | cons r rs ih =>
    cases rs with
    | nil =>
      simp at hlast
      subst hlast
      have : ¬ key < r.timestamp := by omega
      simp [newerCount, this]
    | cons r2 rs2 =>
      have h2 : (r2 :: rs2).getLast? = some last := by
        rw [List.getLast?_cons_cons] at hlast; exact hlast
      have := ih h2
      unfold newerCount
      split
      · simp at this ⊢; omega
      · simp

theorem placeByScan_at_search (key : Int) (name : Str) (rt : Int) (rows : List dataRow) :
    ∃ b, (placeByScan key name rt rows)[newerCount key rows]? = some b ∧ b.timestamp = key ∧
      lookupCol name b.columns = some rt := by
  induction rows with
  | nil => exact ⟨freshRow key name rt, by simp [placeByScan, newerCount], rfl,
      by simp [freshRow, setCol, lookupCol]⟩
  | cons r rs ih =>
    unfold placeByScan newerCount
    by_cases h1 : key < r.timestamp
    · have h2 : ¬ r.timestamp < key := by omega
      have h3 : ¬ r.timestamp = key := by omega
      simp only [h1, h2, h3, if_true, if_false, List.getElem?_cons_succ]
      exact ih
    · simp only [h1, if_false]
      by_cases h2 : r.timestamp < key
      · simp only [h2, if_true, List.getElem?_cons_zero]
        exact ⟨_, rfl, rfl, by simp [freshRow, setCol, lookupCol]⟩
      · have h3 : r.timestamp = key := by omega
        simp only [h2, if_false]
        rw [if_pos h3]
        exact ⟨{ r with columns := setCol r.columns name rt }, by simp, h3,
          by simp [setCol, lookupCol]⟩

theorem pairwise_gt_of_index (l : List dataRow)
    (hp : l.Pairwise (fun a b => a.timestamp > b.timestamp)) (i j : Nat) (x y : dataRow)
    (hx : l[i]? = some x) (hy : l[j]? = some y) (hij : i < j) : x.timestamp > y.timestamp := by
  obtain ⟨hi, hxi⟩ := List.getElem?_eq_some.mp hx
  obtain ⟨hj, hyj⟩ := List.getElem?_eq_some.mp hy
  have := List.pairwise_iff_getElem.mp hp i j hi hj hij
  rw [hxi, hyj] at this; exact this

/-- C7: for every capacity of at least one and every strictly descending Series no longer than
the capacity that is not full or whose oldest key is at most the minute of `T`, inserting a
result for target `A` at `T` and then a second result for `A` at a time `T2` of the same minute
leaves exactly one bucket for that minute, its cell for `A` holds the second latency, the keys
are those left by the first insert, every other bucket is unchanged and every other cell of
that bucket is unchanged (the latencies 100 and 200 of the claim are `v1` and `v2`). -/
theorem insertResultIntoRows_overwrite (cap : Nat) (rows : List dataRow) (A : Str)
    (v1 v2 T T2 : Int) (hcap : 1 ≤ cap) (hd : descending rows) (hlen : rows.length ≤ cap)
    (hroom : rows.length < cap ∨
      ∃ last, rows.getLast? = some last ∧ last.timestamp ≤ dropTimeSecond T)
    (hmin : dropTimeSecond T2 = dropTimeSecond T) :
    ((insertResultIntoRows cap (insertResultIntoRows cap rows ⟨A, v1, T⟩).1 ⟨A, v2, T2⟩).1.map
        dataRow.timestamp).count (dropTimeSecond T) = 1 ∧
      (∀ x ∈ (insertResultIntoRows cap (insertResultIntoRows cap rows ⟨A, v1, T⟩).1
          ⟨A, v2, T2⟩).1, x.timestamp = dropTimeSecond T → lookupCol A x.columns = some v2) ∧
      (insertResultIntoRows cap (insertResultIntoRows cap rows ⟨A, v1, T⟩).1 ⟨A, v2, T2⟩).1.length
        = (insertResultIntoRows cap rows ⟨A, v1, T⟩).1.length ∧
      ∀ (i : Nat) (x y : dataRow), (insertResultIntoRows cap rows ⟨A, v1, T⟩).1[i]? = some x →
        (insertResultIntoRows cap (insertResultIntoRows cap rows ⟨A, v1, T⟩).1
          ⟨A, v2, T2⟩).1[i]? = some y →
        y.timestamp = x.timestamp ∧ (x.timestamp ≠ dropTimeSecond T → y = x) ∧
          ∀ name, name ≠ A → lookupCol name y.columns = lookupCol name x.columns := by
  have _ := hcap
  have hp := (descending_iff_pairwise rows).mp hd
  have hp1 := insert_pairwise cap rows ⟨A, v1, T⟩ hp
  have hl1 := insert_length_le cap rows ⟨A, v1, T⟩ hp hlen
  have hp2 := insert_pairwise cap _ ⟨A, v2, T2⟩ hp1
  -- the bucket of the minute is in the Series after the first insert
  have hidx : newerCount (dropTimeSecond T) rows < cap := by
    rcases hroom with h | ⟨last, hl, hle⟩
    · have := newerCount_le (dropTimeSecond T) rows; omega
    · have := newerCount_lt_of_getLast _ rows last hl hle; omega
  have hmem : dropTimeSecond T ∈ (insertResultIntoRows cap rows ⟨A, v1, T⟩).1.map
      dataRow.timestamp := by
    rw [insert_rows_eq_take cap rows _ hp hlen]
    obtain ⟨b, hb, hbk, _⟩ := placeByScan_at_search (dropTimeSecond T) A v1 rows
    refine List.mem_map.mpr ⟨b, ?_, hbk⟩
    have : ((placeByScan (dropTimeSecond T) A v1 rows).take cap)[newerCount (dropTimeSecond T)
        rows]? = some b := by
      rw [List.getElem?_take_of_lt hidx]; exact hb
    exact List.mem_iff_getElem?.mpr ⟨_, this⟩
  have hb1 := (bucketAtSearch_iff_mem _ _ hp1).mpr hmem
  -- the second insert is an assignment at the position of that bucket
  have h2 : (insertResultIntoRows cap (insertResultIntoRows cap rows ⟨A, v1, T⟩).1
      ⟨A, v2, T2⟩).1 = assignCell (insertResultIntoRows cap rows ⟨A, v1, T⟩).1
        (newerCount (dropTimeSecond T) (insertResultIntoRows cap rows ⟨A, v1, T⟩).1) A v2 := by
    rw [insert_rows_eq cap _ _ hp1]
    simp only [hmin]
    rw [if_pos hb1, placeByScan_eq]
    unfold bucketAtSearch at hb1
    rw [if_pos hb1]
  generalize (insertResultIntoRows cap rows ⟨A, v1, T⟩).1 = s1 at *
  generalize (insertResultIntoRows cap s1 ⟨A, v2, T2⟩).1 = s2 at *
  subst h2
  unfold bucketAtSearch at hb1
  generalize newerCount (dropTimeSecond T) s1 = idx at *
  have hget := assignCell_getElem? s1 idx A v2
  have hkeys : (assignCell s1 idx A v2).map dataRow.timestamp = s1.map dataRow.timestamp := by
    apply List.ext_getElem?
    intro j
    rw [List.getElem?_map, List.getElem?_map, hget j]
    split
    · cases s1[j]? <;> rfl
    · rfl
  have hnd : (s1.map dataRow.timestamp).Nodup := by
    rw [List.Nodup, List.pairwise_map]
    exact hp1.imp (fun h => by omega)
  refine ⟨?_, ?_, assignCell_length _ _ _ _, ?_⟩
  · rw [hkeys]
    exact List.count_eq_one_of_mem hnd hmem
  · intro x hx hxk
    obtain ⟨j, hj⟩ := List.mem_iff_getElem?.mp hx
    rw [hget j] at hj
    by_cases hji : j = idx
    · rw [if_pos hji] at hj
      cases hs : s1[j]? with
      | none => rw [hs] at hj; simp at hj
      | some b =>
        rw [hs] at hj
        simp only [Option.map_some', Option.some.injEq] at hj
        rw [← hj]
        simp [setCol, lookupCol]
    · rw [if_neg hji] at hj
      exfalso
      cases hs : s1[idx]? with
      | none => rw [hs] at hb1; simp at hb1
      | some b =>
        rw [hs] at hb1
        simp only [Option.map_some', Option.some.injEq] at hb1
        rcases Nat.lt_or_gt_of_ne hji with hlt | hgt
        · have := pairwise_gt_of_index s1 hp1 j idx x b hj hs hlt
          omega
        · have := pairwise_gt_of_index s1 hp1 idx j b x hs hj hgt
          omega
  · intro i x y hx hy
    rw [hget i, hx] at hy
    by_cases hii : i = idx
    · rw [if_pos hii] at hy
      simp only [Option.map_some', Option.some.injEq] at hy
      subst hii
      rw [hx] at hb1
      simp only [Option.map_some', Option.some.injEq] at hb1
      rw [← hy]
      refine ⟨rfl, fun hne => absurd hb1 hne, ?_⟩
      intro name hname
      simp [setCol, lookupCol, hname]
    · rw [if_neg hii] at hy
      simp only [Option.some.injEq] at hy
      subst hy
      exact ⟨rfl, fun _ => rfl, fun _ _ => rfl⟩

theorem insertResultIntoRows_overwrite_witness :
    ((insertResultIntoRows 2 (insertResultIntoRows 2
        [⟨180, [(['A'], 5)]⟩, ⟨60, [(['A'], 6)]⟩] ⟨['A'], 100, 125⟩).1 ⟨['A'], 200, 130⟩).1.map
        dataRow.timestamp).count (dropTimeSecond 125) = 1 ∧
      (∀ x ∈ (insertResultIntoRows 2 (insertResultIntoRows 2
          [⟨180, [(['A'], 5)]⟩, ⟨60, [(['A'], 6)]⟩] ⟨['A'], 100, 125⟩).1 ⟨['A'], 200, 130⟩).1,
        x.timestamp = dropTimeSecond 125 → lookupCol ['A'] x.columns = some 200) ∧
      (insertResultIntoRows 2 (insertResultIntoRows 2
          [⟨180, [(['A'], 5)]⟩, ⟨60, [(['A'], 6)]⟩] ⟨['A'], 100, 125⟩).1 ⟨['A'], 200, 130⟩).1.length
        = (insertResultIntoRows 2 [⟨180, [(['A'], 5)]⟩, ⟨60, [(['A'], 6)]⟩]
            ⟨['A'], 100, 125⟩).1.length ∧
      ∀ (i : Nat) (x y : dataRow),
        (insertResultIntoRows 2 [⟨180, [(['A'], 5)]⟩, ⟨60, [(['A'], 6)]⟩]
          ⟨['A'], 100, 125⟩).1[i]? = some x →
        (insertResultIntoRows 2 (insertResultIntoRows 2
          [⟨180, [(['A'], 5)]⟩, ⟨60, [(['A'], 6)]⟩] ⟨['A'], 100, 125⟩).1
            ⟨['A'], 200, 130⟩).1[i]? = some y →
        y.timestamp = x.timestamp ∧ (x.timestamp ≠ dropTimeSecond 125 → y = x) ∧
          ∀ name, name ≠ ['A'] → lookupCol name y.columns = lookupCol name x.columns :=
  insertResultIntoRows_overwrite 2 [⟨180, [(['A'], 5)]⟩, ⟨60, [(['A'], 6)]⟩] ['A'] 100 200 125 130
    (by decide) (by decide) (by decide) (Or.inr ⟨⟨60, [(['A'], 6)]⟩, by decide, by decide⟩)
    (by decide)

/-! ## The completion branch of the consumer loop -/

theorem newerCount_eq_length (key : Int) (rows : List dataRow)
    (h : ∀ x ∈ rows, key < x.timestamp) : newerCount key rows = rows.length := by
  induction rows with
  | nil => rfl
  | cons r rs ih =>
    have h1 : key < r.timestamp := h r (List.mem_cons_self _ _)
    simp [newerCount, h1, ih (fun x hx => h x (List.mem_cons_of_mem _ hx))]

/-- C8 (as stated) fails: with capacity one, the Series holding the complete bucket of minute
120 and a result of minute 60, the new bucket is trimmed away, yet the completion branch runs
(for the bucket of minute 120). -/
theorem aggregatorStep_trimmed_insert_fires :
    descending [⟨120, [(['A'], 5)]⟩] ∧ ([⟨120, [(['A'], 5)]⟩] : List dataRow).length = 1 ∧
      (∀ x ∈ ([⟨120, [(['A'], 5)]⟩] : List dataRow), dropTimeSecond 60 < x.timestamp) ∧
      aggregatorStep 1 [['A']] [⟨120, [(['A'], 5)]⟩] ⟨['A'], 7, 60⟩ =
        some ⟨formatLine ⟨['A'], 7, 60⟩, [⟨120, [(['A'], 5)]⟩], true⟩ := by
  decide

/-- C8 (amended): for every capacity of at least one, every full strictly descending Series and
every result whose minute is older than every key, the aggregator step leaves the Series
unchanged and runs the completion branch exactly when the oldest bucket (the one at index
capacity - 1) is complete; in particular it does not run when that bucket is incomplete. -/
theorem aggregatorStep_trimmed_insert (cap : Nat) (namesList : List Str) (rows : List dataRow)
    (r : benchmarkResult) (hcap : 1 ≤ cap) (hd : descending rows) (hfull : rows.length = cap)
    (hold : ∀ x ∈ rows, dropTimeSecond r.startTime < x.timestamp) :
    ∃ last, rows[cap - 1]? = some last ∧
      aggregatorStep cap namesList rows r =
        some ⟨formatLine r, rows, decide (lenColumns last.columns = namesList.length)⟩ := by
  have hp := (descending_iff_pairwise rows).mp hd
  have hnc := newerCount_eq_length _ rows hold
  have hnot : ¬ bucketAtSearch (dropTimeSecond r.startTime) rows := by
    unfold bucketAtSearch
    rw [hnc, List.getElem?_eq_none (le_refl _)]
    simp
  have hrows : (insertResultIntoRows cap rows r).1 = rows := by
    rw [insert_rows_eq cap rows r hp, if_neg hnot, placeByScan_eq]
    unfold bucketAtSearch at hnot
    rw [if_neg hnot, hnc, insertSlices, ← hfull]
    simp
  have hidx : (insertResultIntoRows cap rows r).2 = cap - 1 := by
    rw [insert_idx_eq cap rows r hp, if_neg hnot, hnc, if_pos ⟨by omega, by omega⟩]
  have hlt : cap - 1 < rows.length := by omega
  refine ⟨rows[cap - 1], List.getElem?_eq_getElem hlt, ?_⟩
  unfold aggregatorStep
  simp only [hrows, hidx, List.getElem?_eq_getElem hlt]

theorem aggregatorStep_trimmed_insert_witness :
    ∃ last, ([⟨180, [(['A'], 5)]⟩, ⟨60, [(['A'], 6)]⟩] : List dataRow)[2 - 1]? = some last ∧
      aggregatorStep 2 [['A'], ['B']] [⟨180, [(['A'], 5)]⟩, ⟨60, [(['A'], 6)]⟩] ⟨['B'], 7, 30⟩ =
        some ⟨formatLine ⟨['B'], 7, 30⟩, [⟨180, [(['A'], 5)]⟩, ⟨60, [(['A'], 6)]⟩],
          decide (lenColumns last.columns = ([['A'], ['B']] : List Str).length)⟩ :=
  aggregatorStep_trimmed_insert 2 [['A'], ['B']] [⟨180, [(['A'], 5)]⟩, ⟨60, [(['A'], 6)]⟩]
    ⟨['B'], 7, 30⟩ (by decide) (by decide) (by decide) (by decide)

theorem aggregatorStep_written_bucket (cap : Nat) (namesList : List Str) (rows : List dataRow)
    (r : benchmarkResult) (hd : descending rows) (hlen : rows.length ≤ cap)
    (hroom : rows.length < cap ∨
      ∃ last, rows.getLast? = some last ∧ last.timestamp ≤ dropTimeSecond r.startTime) :
    ∃ o bucket, aggregatorStep cap namesList rows r = some o ∧
      o.rows = (insertResultIntoRows cap rows r).1 ∧
      o.rows[(insertResultIntoRows cap rows r).2]? = some bucket ∧
      bucket.timestamp = dropTimeSecond r.startTime ∧
      lookupCol r.name bucket.columns = some r.rt ∧
      (o.completed = true ↔ lenColumns bucket.columns = namesList.length) := by
  have hp := (descending_iff_pairwise rows).mp hd
  have hnc : newerCount (dropTimeSecond r.startTime) rows < cap := by
    rcases hroom with h | ⟨last, hl, hle⟩
    · have := newerCount_le (dropTimeSecond r.startTime) rows; omega
    · have := newerCount_lt_of_getLast _ rows last hl hle; omega
  have hidx : (insertResultIntoRows cap rows r).2 = newerCount (dropTimeSecond r.startTime) rows := by
    rw [insert_idx_eq cap rows r hp]
    split
    · rfl
    · rw [if_neg (by omega)]
  obtain ⟨b, hb, hbk, hbv⟩ := placeByScan_at_search (dropTimeSecond r.startTime) r.name r.rt rows
  have hget : (insertResultIntoRows cap rows r).1[(insertResultIntoRows cap rows r).2]? = some b := by
    rw [hidx, insert_rows_eq_take cap rows r hp hlen, List.getElem?_take_of_lt hnc]
    exact hb
  refine ⟨⟨formatLine r, (insertResultIntoRows cap rows r).1,
    decide (lenColumns b.columns = namesList.length)⟩, b, ?_, rfl, hget, hbk, hbv, ?_⟩
  · unfold aggregatorStep
    simp only [hget]
  · simp

/-- C4 (as stated) fails: with targets A and B, capacity two and an empty Series, the result for
A at minute 60 does not run the completion branch, the result for B at minute 60 runs it, and
the duplicate result for A at minute 60 runs it a second time. -/
theorem consumerLoop_duplicate_fires_again :
    consumerLoop 2 [['A'], ['B']] [] [⟨['A'], 10, 60⟩, ⟨['B'], 11, 60⟩, ⟨['A'], 12, 60⟩] =
      some ([⟨60, [(['A'], 12), (['B'], 11), (['A'], 10)]⟩], [false, true, true]) := by
  decide

/-- C4 (amended): with two distinct targets A and B, a capacity of at least one and an empty
Series, the result for A at time `T` does not run the completion branch, the result for B at
`T` runs it, and a duplicate result for A at `T` runs it again.  In general, for every
strictly descending Series no longer than the capacity and every result whose bucket is not
trimmed away (the Series is not full or its oldest key is at most the minute of the result),
the step runs the completion branch exactly when the bucket it wrote to, the one at the
returned index, holding the minute and the cell of the result, is complete after the write,
whether or not it was complete before. -/
theorem consumerLoop_completion (cap : Nat) (A B : Str) (T a b a2 : Int)
    (hcap : 1 ≤ cap) (hAB : A ≠ B) :
    consumerLoop cap [A, B] [] [⟨A, a, T⟩, ⟨B, b, T⟩, ⟨A, a2, T⟩] =
        some ([⟨dropTimeSecond T, [(A, a2), (B, b), (A, a)]⟩], [false, true, true]) ∧
      ∀ (namesList : List Str) (rows : List dataRow) (r : benchmarkResult),
        descending rows → rows.length ≤ cap →
        (rows.length < cap ∨
          ∃ last, rows.getLast? = some last ∧ last.timestamp ≤ dropTimeSecond r.startTime) →
        ∃ o bucket, aggregatorStep cap namesList rows r = some o ∧
          o.rows = (insertResultIntoRows cap rows r).1 ∧
          o.rows[(insertResultIntoRows cap rows r).2]? = some bucket ∧
          bucket.timestamp = dropTimeSecond r.startTime ∧
          lookupCol r.name bucket.columns = some r.rt ∧
          (o.completed = true ↔ lenColumns bucket.columns = namesList.length) := by
  constructor
  · have h1 : ¬ 1 > cap := by omega
    have hBA : ¬ B = A := fun e => hAB e.symm
    simp [consumerLoop, aggregatorStep, insertResultIntoRows, sortSearch, searchLoop, searchPred,
      insertSlices, assignCell, setCol, lenColumns, hAB, hBA, h1]
  · intro namesList rows r hd hlen hroom
    exact aggregatorStep_written_bucket cap namesList rows r hd hlen hroom

theorem consumerLoop_completion_witness :
    consumerLoop 3 [['A'], ['B']] [] [⟨['A'], 10, 125⟩, ⟨['B'], 11, 125⟩, ⟨['A'], 12, 125⟩] =
        some ([⟨dropTimeSecond 125, [(['A'], 12), (['B'], 11), (['A'], 10)]⟩],
          [false, true, true]) ∧
      ∃ o bucket,
        aggregatorStep 3 [['A'], ['B']] [⟨180, [(['A'], 5)]⟩, ⟨120, [(['B'], 11)]⟩]
          ⟨['A'], 12, 125⟩ = some o ∧
        o.rows = (insertResultIntoRows 3 [⟨180, [(['A'], 5)]⟩, ⟨120, [(['B'], 11)]⟩]
          ⟨['A'], 12, 125⟩).1 ∧
        o.rows[(insertResultIntoRows 3 [⟨180, [(['A'], 5)]⟩, ⟨120, [(['B'], 11)]⟩]
          ⟨['A'], 12, 125⟩).2]? = some bucket ∧
        bucket.timestamp = dropTimeSecond 125 ∧
        lookupCol ['A'] bucket.columns = some 12 ∧
        (o.completed = true ↔ lenColumns bucket.columns = ([['A'], ['B']] : List Str).length) :=
  ⟨(consumerLoop_completion 3 ['A'] ['B'] 125 10 11 12 (by decide) (by decide)).1,
    (consumerLoop_completion 3 ['A'] ['B'] 125 10 11 12 (by decide) (by decide)).2
      [['A'], ['B']] [⟨180, [(['A'], 5)]⟩, ⟨120, [(['B'], 11)]⟩] ⟨['A'], 12, 125⟩
      (by decide) (by decide) (Or.inl (by decide))⟩

/-! ## The retry loop -/

/-- C10 (as stated) fails: when all three passes fail at once, the prober sleeps 15 seconds
after the third failed pass too, and only then emits the result. -/
theorem proberTask_sleeps_after_last_attempt :
    proberTask (fun _ => ⟨0, -1, true, 0⟩) ['A'] 100 =
      [action.probe, action.sleep 15, action.probe, action.sleep 15, action.probe,
        action.sleep 15, action.emit ⟨['A'], -1, 100⟩] := by
  decide

/-- C10 (amended): for every sequence of probe outcomes the prober makes at most three passes
and stops at the first successful one; after every failed pass, the third included, it sleeps
`15 - elapsed` seconds when that is positive; it then emits one result carrying the latency of
the last pass and the start time of the round. -/
theorem proberTask_trace (env : Nat → attempt) (siteName : Str) (roundStart : Int) :
    proberTask env siteName roundStart =
      if (env 1).failed = false then
        [action.probe, action.emit ⟨siteName, (env 1).rt, roundStart⟩]
      else if (env 2).failed = false then
        [action.probe] ++ pacing (env 1) ++
          [action.probe, action.emit ⟨siteName, (env 2).rt, roundStart⟩]
      else if (env 3).failed = false then
        [action.probe] ++ pacing (env 1) ++ ([action.probe] ++ pacing (env 2)) ++
          [action.probe, action.emit ⟨siteName, (env 3).rt, roundStart⟩]
      else
        [action.probe] ++ pacing (env 1) ++ ([action.probe] ++ pacing (env 2)) ++
          ([action.probe] ++ pacing (env 3)) ++ [action.emit ⟨siteName, (env 3).rt, roundStart⟩] := by
  unfold proberTask
  simp only [retryLoop, pacing]
  cases h1 : (env 1).failed <;> cases h2 : (env 2).failed <;> cases h3 : (env 3).failed <;>
    simp <;> split_ifs <;> simp

/-! ## The log record: writing and reading back -/

theorem digitChar_facts : ∀ d : Fin 10,
    digitVal (digitChar d.val) = some d.val ∧ digitChar d.val ≠ ',' ∧ digitChar d.val ≠ '\n' ∧
      digitChar d.val ≠ '\r' ∧ digitChar d.val ≠ '-' ∧ digitChar d.val ≠ '+' := by
  decide

theorem fmtNatLoop_acc : ∀ (fuel n : Nat) (acc : Str), n < fuel →
    fmtNatLoop fuel n acc = fmtNatLoop fuel n [] ++ acc := by
  intro fuel
  induction fuel with
  | zero => intro n acc h; omega
  | succ fuel ih =>
    intro n acc h
    unfold fmtNatLoop
    by_cases h10 : n < 10
    · simp [h10]
    · simp only [h10, if_false]
      have hlt : n / 10 < fuel := by omega
      rw [ih (n / 10) _ hlt, ih (n / 10) [digitChar (n % 10)] hlt]
      simp

theorem fmtNatLoop_fuel : ∀ (fuel1 fuel2 n : Nat) (acc : Str), n < fuel1 → n < fuel2 →
    fmtNatLoop fuel1 n acc = fmtNatLoop fuel2 n acc := by
  intro fuel1
  induction fuel1 with
  | zero => intro fuel2 n acc h; omega
  | succ fuel1 ih =>
    intro fuel2 n acc h1 h2
    cases fuel2 with
    | zero => omega
    | succ fuel2 =>
      unfold fmtNatLoop
      by_cases h10 : n < 10
      · simp [h10]
      · simp only [h10, if_false]
        exact ih fuel2 (n / 10) _ (by omega) (by omega)

theorem fmtNat_small (n : Nat) (h : n < 10) : fmtNat n = [digitChar n] := by
  simp [fmtNat, fmtNatLoop, h]

theorem fmtNat_step (n : Nat) (h : ¬ n < 10) :
    fmtNat n = fmtNat (n / 10) ++ [digitChar (n % 10)] := by
  unfold fmtNat
  rw [fmtNatLoop]
  simp only [h, if_false]
  rw [fmtNatLoop_acc n (n / 10) _ (by omega),
    fmtNatLoop_fuel n (n / 10 + 1) (n / 10) [] (by omega) (by omega)]

/-- The bytes `%d` can produce for a non-negative integer. -/
theorem fmtNat_digits (n : Nat) : ∀ c ∈ fmtNat n, ∃ d : Fin 10, c = digitChar d.val := by
  induction n using Nat.strong_induction_on with
  | _ n ih =>
    by_cases h : n < 10
    · rw [fmtNat_small n h]
      intro c hc
      simp only [List.mem_singleton] at hc
      exact ⟨⟨n, h⟩, hc⟩
    · rw [fmtNat_step n h]
      intro c hc
      rcases List.mem_append.mp hc with h1 | h1
      · exact ih (n / 10) (by omega) c h1
      · simp only [List.mem_singleton] at h1
        exact ⟨⟨n % 10, Nat.mod_lt _ (by omega)⟩, h1⟩

theorem fmtNat_ne_nil (n : Nat) : fmtNat n ≠ [] := by
  by_cases h : n < 10
  · rw [fmtNat_small n h]; simp
  · rw [fmtNat_step n h]; simp

theorem parseDigits_snoc (s : Str) (d : Fin 10) (acc : Nat) :
    parseDigits (s ++ [digitChar d.val]) acc = (parseDigits s acc).map (fun v => v * 10 + d.val) := by
  induction s generalizing acc with
  | nil => simp [parseDigits, (digitChar_facts d).1]
  | cons c cs ih =>
    simp only [List.cons_append, parseDigits]
    cases digitVal c with
    | none => rfl
    | some v => exact ih _

theorem parseDigits_fmtNat (n : Nat) : parseDigits (fmtNat n) 0 = some n := by
  induction n using Nat.strong_induction_on with
  | _ n ih =>
    by_cases h : n < 10
    · rw [fmtNat_small n h]
      have := (digitChar_facts ⟨n, h⟩).1
      simp only at this
      simp [parseDigits, this]
    · rw [fmtNat_step n h]
      have := parseDigits_snoc (fmtNat (n / 10)) ⟨n % 10, Nat.mod_lt _ (by omega)⟩ 0
      simp only at this
      rw [this, ih (n / 10) (by omega)]
      simp only [Option.map_some', Option.some.injEq]
      omega

theorem parseUint_fmtNat (n : Nat) (h : n < 2 ^ 64) : parseUint (fmtNat n) = some n := by
  unfold parseUint
  simp [fmtNat_ne_nil, parseDigits_fmtNat]
  omega

theorem fmtNat_head (n : Nat) : ∃ (d : Fin 10) (t : Str), fmtNat n = digitChar d.val :: t := by
  cases hs : fmtNat n with
  | nil => exact absurd hs (fmtNat_ne_nil n)
  | cons c t =>
    obtain ⟨d, hd⟩ := fmtNat_digits n c (by rw [hs]; exact List.mem_cons_self _ _)
    exact ⟨d, t, by rw [hd]⟩

theorem parseInt_fmtInt (z : Int) (hlo : -2 ^ 63 ≤ z) (hhi : z < 2 ^ 63) :
    parseInt (fmtInt z) = some z := by
  unfold fmtInt
  by_cases hneg : z < 0
  · simp only [hneg, if_true, parseInt]
    have hn : z.natAbs < 2 ^ 64 := by omega
    simp only [or_true, if_true, parseUint_fmtNat _ hn]
    have h2 : ¬ z.natAbs > 2 ^ 63 := by omega
    simp only [h2, if_false, Option.some.injEq]
    omega
  · simp only [hneg, if_false]
    obtain ⟨d, t, hdt⟩ := fmtNat_head z.natAbs
    have hn : z.natAbs < 2 ^ 64 := by omega
    have hp := parseUint_fmtNat _ hn
    rw [hdt] at hp ⊢
    have hf := digitChar_facts d
    simp only [parseInt, hf.2.2.2.2.1, hf.2.2.2.2.2, or_self, if_false, hp]
    have h2 : ¬ z.natAbs ≥ 2 ^ 63 := by omega
    simp only [h2, if_false, Option.some.injEq]
    omega

theorem fmtInt_chars (z : Int) : ∀ c ∈ fmtInt z, c ≠ ',' ∧ c ≠ '\n' := by
  intro c hc
  have hd : ∀ c ∈ fmtNat z.natAbs, c ≠ ',' ∧ c ≠ '\n' := by
    intro c hc
    obtain ⟨d, hd⟩ := fmtNat_digits _ c hc
    have hf := digitChar_facts d
    rw [hd]; exact ⟨hf.2.1, hf.2.2.1⟩
  unfold fmtInt at hc
  split at hc
  · rcases List.mem_cons.mp hc with h | h
    · rw [h]; decide
    · exact hd c h
  · exact hd c hc

theorem fmtInt_getLast (z : Int) : (fmtInt z).getLast? ≠ some '\r' := by
  intro h
  have hmem : '\r' ∈ fmtInt z := List.mem_of_getLast?_eq_some h
  unfold fmtInt at hmem
  have hd : '\r' ∉ fmtNat z.natAbs := by
    intro hc
    obtain ⟨d, hd⟩ := fmtNat_digits _ _ hc
    exact (digitChar_facts d).2.2.2.1 hd.symm
  split at hmem
  · rcases List.mem_cons.mp hmem with h | h
    · exact absurd h (by decide)
    · exact hd h
  · exact hd hmem

theorem splitAtComma_append (s t : Str) (h : ',' ∉ s) :
    splitAtComma (s ++ ',' :: t) = some (s, t) := by
  induction s with
  | nil => simp [splitAtComma]
  | cons c cs ih =>
    have hc : c ≠ ',' := fun e => h (by rw [e]; exact List.mem_cons_self _ _)
    have hcs : ',' ∉ cs := fun e => h (List.mem_cons_of_mem _ e)
    simp [splitAtComma, hc, ih hcs]

theorem splitAtComma_none (s : Str) (h : ',' ∉ s) : splitAtComma s = none := by
  induction s with
  | nil => rfl
  | cons c cs ih =>
    have hc : c ≠ ',' := fun e => h (by rw [e]; exact List.mem_cons_self _ _)
    have hcs : ',' ∉ cs := fun e => h (List.mem_cons_of_mem _ e)
    simp [splitAtComma, hc, ih hcs]

theorem readSlice_line (s rest : Str) (room : Nat) (h : '\n' ∉ s) (hroom : s.length < room) :
    readSlice room (s ++ '\n' :: rest) = (s ++ ['\n'], rest, sliceEnd.delim) := by
  induction s generalizing room with
  | nil =>
    obtain ⟨k, rfl⟩ : ∃ k, room = k + 1 := ⟨room - 1, by simp at hroom; omega⟩
    simp [readSlice]
  | cons c cs ih =>
    have hc : c ≠ '\n' := fun e => h (by rw [e]; exact List.mem_cons_self _ _)
    have hcs : '\n' ∉ cs := fun e => h (List.mem_cons_of_mem _ e)
    obtain ⟨k, rfl⟩ : ∃ k, room = k + 1 := ⟨room - 1, by simp at hroom; omega⟩
    have hih := ih k hcs (by simp at hroom; omega)
    simp only [List.cons_append, readSlice, hc, if_false, List.append_eq, hih]

theorem readLine_line (s rest : Str) (h : '\n' ∉ s) (hlen : s.length < defaultBufSize)
    (hcr : s.getLast? ≠ some '\r') : readLine (s ++ '\n' :: rest) = some (s, rest) := by
  unfold readLine
  rw [readSlice_line s rest _ h hlen]
  simp [hcr]

theorem fmtInt_ne_nil (z : Int) : fmtInt z ≠ [] := by
  unfold fmtInt
  split
  · simp
  · exact fmtNat_ne_nil _

/-- C9 (as stated) fails: for the configured target name `a,b` the line written for a result
is read back whole, but the parser cuts the name at its comma and discards the line. -/
theorem log_line_comma_name_discarded :
    (['a', ',', 'b'] : Str) ∈ [['a', ',', 'b']] ∧ (['a', ',', 'b'] : Str) ≠ [] ∧
      readLine (formatLine ⟨['a', ',', 'b'], 5, 60⟩) =
        some (['6', '0', ',', 'a', ',', 'b', ',', '5'], []) ∧
      parseLine [['a', ',', 'b']] ['6', '0', ',', 'a', ',', 'b', ',', '5'] = none := by
  decide

/-- C9 (amended): for every result whose target name is a configured target and holds neither
a comma nor a line feed, whose start time is at or after the epoch (an `int64`), whose latency
is an `int32`, and whose line fits the buffer of the reader, the line the aggregator writes is
read back by `ReadLine` and parsed by the loader into the same result, so replaying it makes
the same call of `insertResultIntoRows`. -/
theorem log_line_round_trip (namesList : List Str) (r : benchmarkResult) (rest : Str)
    (hname : r.name ∈ namesList) (hcomma : ',' ∉ r.name) (hnl : '\n' ∉ r.name)
    (ht0 : 0 ≤ r.startTime) (ht1 : r.startTime < 2 ^ 63)
    (hr0 : -2 ^ 31 ≤ r.rt) (hr1 : r.rt < 2 ^ 31)
    (hfit : (formatLine r).length ≤ defaultBufSize) :
    ∃ line, readLine (formatLine r ++ rest) = some (line, rest) ∧
      parseLine namesList line = some r := by
  obtain ⟨name, rt, t⟩ := r
  simp only at hname hcomma hnl ht0 ht1 hr0 hr1
  refine ⟨fmtInt t ++ (',' :: name ++ (',' :: fmtInt rt)), ?_, ?_⟩
  · have hform : formatLine ⟨name, rt, t⟩ ++ rest =
        (fmtInt t ++ (',' :: name ++ (',' :: fmtInt rt))) ++ '\n' :: rest := by
      simp [formatLine]
    rw [hform]
    apply readLine_line
    · intro hmem
      rcases List.mem_append.mp hmem with h | h
      · exact (fmtInt_chars t _ h).2 rfl
      · rcases List.mem_cons.mp h with h | h
        · exact absurd h (by decide)
        · rcases List.mem_append.mp h with h | h
          · exact hnl h
          · rcases List.mem_cons.mp h with h | h
            · exact absurd h (by decide)
            · exact (fmtInt_chars rt _ h).2 rfl
    · have : (formatLine ⟨name, rt, t⟩).length =
          (fmtInt t ++ (',' :: name ++ (',' :: fmtInt rt))).length + 1 := by
        simp [formatLine]
        omega
      omega
    · have hassoc : fmtInt t ++ (',' :: name ++ (',' :: fmtInt rt)) =
          (fmtInt t ++ (',' :: name ++ [','])) ++ fmtInt rt := by simp
      rw [hassoc, List.getLast?_append]
      cases hl : (fmtInt rt).getLast? with
      | none => exact absurd (List.getLast?_eq_none_iff.mp hl) (fmtInt_ne_nil rt)
      | some c =>
        have := fmtInt_getLast rt
        rw [hl] at this
        simpa using this
  · have hc1 : ',' ∉ fmtInt t := fun h => (fmtInt_chars t _ h).1 rfl
    have hsplit : splitN3 (fmtInt t ++ (',' :: name ++ (',' :: fmtInt rt))) =
        [fmtInt t, name, fmtInt rt] := by
      unfold splitN3
      have h1 := splitAtComma_append (fmtInt t) (name ++ (',' :: fmtInt rt)) hc1
      have h2 := splitAtComma_append name (fmtInt rt) hcomma
      simp only [List.cons_append] at h1 ⊢
      rw [h1]
      simp only [h2]
    have htn : fmtInt t = fmtNat t.natAbs := by
      unfold fmtInt
      rw [if_neg (by omega)]
    have hpu : parseUint (fmtInt t) = some t.natAbs := by
      rw [htn]; exact parseUint_fmtNat _ (by omega)
    have hpi := parseInt_fmtInt rt (by omega) (by omega)
    unfold parseLine
    rw [hsplit]
    simp only [hpu, hname, if_true, hpi]
    have e1 : toInt32 rt = rt := by unfold toInt32; omega
    have e2 : uint64ToInt64 t.natAbs = t := by
      unfold uint64ToInt64
      rw [if_pos (by omega)]
      omega
    rw [e1, e2]

theorem log_line_round_trip_witness :
    ∃ line, readLine (formatLine ⟨['A'], -1, 125⟩ ++ formatLine ⟨['B'], 300, 125⟩) =
        some (line, formatLine ⟨['B'], 300, 125⟩) ∧
      parseLine [['A'], ['B']] line = some ⟨['A'], -1, 125⟩ :=
  log_line_round_trip [['A'], ['B']] ⟨['A'], -1, 125⟩ (formatLine ⟨['B'], 300, 125⟩)
    (by decide) (by decide) (by decide) (by decide) (by decide) (by decide) (by decide)
    (by decide)

/-! ## The warm-start loader -/

theorem readSlice_spec (room : Nat) (inp : Str) :
    (readSlice room inp).1 ++ (readSlice room inp).2.1 = inp ∧
      ((readSlice room inp).2.2 = sliceEnd.bufferFull → (readSlice room inp).1.length = room) ∧
      ((readSlice room inp).2.2 ≠ sliceEnd.bufferFull → (readSlice room inp).1 = [] →
        inp = []) := by
  induction room generalizing inp with
  | zero => simp [readSlice]
  | succ room ih =>
    cases inp with
    | nil => simp [readSlice]
    | cons c cs =>
      unfold readSlice
      by_cases hc : c = '\n'
      · simp [hc]
      · simp only [hc, if_false]
        obtain ⟨h1, h2, _⟩ := ih cs
        refine ⟨by simp [h1], ?_, ?_⟩
        · intro hf; simp [h2 hf]
        · intro _ hnil; simp at hnil

/-- Every line `ReadLine` returns consumes input, so the inner loop of `loadFiles` ends. -/
theorem readLine_shorter (inp line rest : Str) (h : readLine inp = some (line, rest)) :
    rest.length < inp.length := by
  unfold readLine at h
  obtain ⟨h1, h2, h3⟩ := readSlice_spec defaultBufSize inp
  have hlen : inp.length =
      (readSlice defaultBufSize inp).1.length + (readSlice defaultBufSize inp).2.1.length := by
    conv_lhs => rw [← h1]
    simp
  revert h h2 h3 hlen
  generalize readSlice defaultBufSize inp = out
  obtain ⟨sl, rs, e⟩ := out
  intro h h2 h3 hlen
  simp only at h h2 h3 hlen
  cases e with
  | bufferFull =>
    have hsl := h2 rfl
    simp only [defaultBufSize] at hsl
    simp only at h
    split at h
    · simp only [Option.some.injEq, Prod.mk.injEq] at h
      rw [← h.2]; simp; omega
    · simp only [Option.some.injEq, Prod.mk.injEq] at h
      rw [← h.2]; omega
  | delim =>
    simp only at h
    have hne : sl ≠ [] := by
      intro hsl
      have := h3 (by simp) hsl
      rw [hsl] at h; simp at h
    have hpos : 0 < sl.length := List.length_pos.mpr hne
    split at h
    · simp at h
    · split at h <;>
      · simp only [Option.some.injEq, Prod.mk.injEq] at h
        rw [← h.2]; omega
  | eof =>
    simp only at h
    have hne : sl ≠ [] := by
      intro hsl
      rw [hsl] at h; simp at h
    have hpos : 0 < sl.length := List.length_pos.mpr hne
    split at h
    · simp at h
    · split at h <;>
      · simp only [Option.some.injEq, Prod.mk.injEq] at h
        rw [← h.2]; omega

/-- The turns allowed to the inner loop of `loadFiles` are enough: with more turns than the
segment has bytes, the outcome does not depend on their number. -/
theorem loadLines_fuel (cap : Nat) (namesList : List Str) :
    ∀ (fuel1 fuel2 : Nat) (inp : Str) (rows : List dataRow),
      inp.length < fuel1 → inp.length < fuel2 →
      loadLines cap namesList fuel1 inp rows = loadLines cap namesList fuel2 inp rows := by
  intro fuel1
  induction fuel1 with
  | zero => intro fuel2 inp rows h; omega
  | succ fuel1 ih =>
    intro fuel2 inp rows h1 h2
    cases fuel2 with
    | zero => omega
    | succ fuel2 =>
      unfold loadLines
      split
      · cases hr : readLine inp with
        | none => rfl
        | some lr =>
          obtain ⟨line, rest⟩ := lr
          have := readLine_shorter inp line rest hr
          simp only
          cases parseLine namesList line with
          | none => exact ih fuel2 rest rows (by omega) (by omega)
          | some result => exact ih fuel2 rest _ (by omega) (by omega)
      · rfl

/-- The loader keeps the Series strictly descending and no longer than the capacity. -/
theorem loadLines_invariant (cap : Nat) (namesList : List Str) :
    ∀ (fuel : Nat) (inp : Str) (rows : List dataRow),
      descending rows → rows.length ≤ cap →
      descending (loadLines cap namesList fuel inp rows) ∧
        (loadLines cap namesList fuel inp rows).length ≤ cap := by
  intro fuel
  induction fuel with
  | zero => intro inp rows hd hl; exact ⟨hd, hl⟩
  | succ fuel ih =>
    intro inp rows hd hl
    unfold loadLines
    split
    · cases readLine inp with
      | none => exact ⟨hd, hl⟩
      | some lr =>
        obtain ⟨line, rest⟩ := lr
        simp only
        cases parseLine namesList line with
        | none => exact ih rest rows hd hl
        | some result =>
          have hp := (descending_iff_pairwise rows).mp hd
          exact ih rest _ ((descending_iff_pairwise _).mpr (insert_pairwise cap rows result hp))
            (insert_length_le cap rows result hp hl)
    · exact ⟨hd, hl⟩

theorem loadFiles_invariant (cap : Nat) (namesList : List Str) :
    ∀ (segments : List Str) (rows : List dataRow),
      descending rows → rows.length ≤ cap →
      descending (loadFiles cap namesList segments rows) ∧
        (loadFiles cap namesList segments rows).length ≤ cap := by
  intro segments
  induction segments with
  | nil => intro rows hd hl; exact ⟨hd, hl⟩
  | cons seg older ih =>
    intro rows hd hl
    unfold loadFiles
    split
    · have := loadLines_invariant cap namesList (seg.length + 1) seg rows hd hl
      exact ih _ this.1 this.2
    · exact ⟨hd, hl⟩

/-- C3: evaluation of `loadFiles` at a failing input.  With capacity one and a segment holding
a valid line of minute 60 followed by a valid line of minute 120, the loader stops after the
first line: the Series holds minute 60 although the newer minute 120 is on disk. -/
theorem loadFiles_keeps_oldest_minute :
    writtenLog [⟨['A'], 5, 60⟩, ⟨['A'], 7, 120⟩] =
        ['6', '0', ',', 'A', ',', '5', '\n', '1', '2', '0', ',', 'A', ',', '7', '\n'] ∧
      parseLine [['A']] ['1', '2', '0', ',', 'A', ',', '7'] = some ⟨['A'], 7, 120⟩ ∧
      loadFiles 1 [['A']] [writtenLog [⟨['A'], 5, 60⟩, ⟨['A'], 7, 120⟩]] [] =
        [⟨60, [(['A'], 5)]⟩] := by
  decide

/-- C5: evaluation of `loadFiles` at a failing input.  Three rounds at minutes 600, 660 and 720
with targets A and B leave three complete buckets in the live Series; the loader run on the
log they wrote, with capacity three, stops at the first line of minute 720 and leaves that
bucket without the cell of B. -/
theorem loadFiles_round_incomplete :
    consumerLoop 3 [['A'], ['B']] []
        [⟨['A'], 10, 600⟩, ⟨['B'], 11, 600⟩, ⟨['A'], 12, 660⟩, ⟨['B'], 13, 660⟩,
          ⟨['A'], 14, 720⟩, ⟨['B'], 15, 720⟩] =
        some ([⟨720, [(['B'], 15), (['A'], 14)]⟩, ⟨660, [(['B'], 13), (['A'], 12)]⟩,
          ⟨600, [(['B'], 11), (['A'], 10)]⟩], [false, true, false, true, false, true]) ∧
      loadFiles 3 [['A'], ['B']]
        [writtenLog [⟨['A'], 10, 600⟩, ⟨['B'], 11, 600⟩, ⟨['A'], 12, 660⟩, ⟨['B'], 13, 660⟩,
          ⟨['A'], 14, 720⟩, ⟨['B'], 15, 720⟩]] [] =
        [⟨720, [(['A'], 14)]⟩, ⟨660, [(['B'], 13), (['A'], 12)]⟩,
          ⟨600, [(['B'], 11), (['A'], 10)]⟩] := by
  decide

end SsMonitor
